import Mathlib

/-
Verification of the comment-extractor response-normalization and batch
ingestion pipeline.

The definitions below are a shallow embedding of the API route
(`app/api/process-images/route.ts`, PDF-capable variant) and of
`lib/csv-export.ts`.  JavaScript strings are modelled as `List Char`
(note: JS `substring` counts UTF-16 code units while we count characters;
all inputs considered here are ASCII, where the two coincide).  The JS
regular expressions used by the route are modelled by explicit executable
functions that reproduce the engine's leftmost-match / greedy / lazy /
backtracking behaviour on the relevant character classes.  `JSON.parse`
is modelled by a recursive-descent parser returning `Option Json`
(numbers are kept as their lexemes; `\uXXXX` escapes are accepted exactly
for valid scalar values).
-/

/-- JSON values as produced by `JSON.parse`.  Object fields are kept in
source order; duplicate keys are resolved last-wins at lookup time, as in
JavaScript. -/
inductive Json where
  | null : Json
  | bool : Bool → Json
  | num : String → Json
  | str : String → Json
  | arr : List Json → Json
  | obj : List (String × Json) → Json

/-- The backtick character, written via its code point. -/
def backtickChar : Char := Char.ofNat 96

/-- The double-quote character. -/
def quoteChar : Char := Char.ofNat 34

/-- The single-quote character. -/
def apostChar : Char := Char.ofNat 39

/-- The backslash character. -/
def backslashChar : Char := Char.ofNat 92

/-- Whitespace as matched by the JavaScript `\s` class (ASCII part, which
covers every input considered here). -/
def jsWsChar (c : Char) : Bool :=
  c == ' ' || c == '\t' || c == '\n' || c == '\r' || c == '\x0b' || c == '\x0c'

/-- Drop leading JS whitespace. -/
def dropJsWs (t : List Char) : List Char := t.dropWhile jsWsChar

/-- JavaScript `String.prototype.trim`. -/
def jsTrim (t : List Char) : List Char :=
  dropJsWs ((dropJsWs t.reverse).reverse)

/-- Whitespace accepted between JSON tokens by `JSON.parse`. -/
def jsonWsChar (c : Char) : Bool :=
  c == ' ' || c == '\t' || c == '\n' || c == '\r'

/-- Skip JSON inter-token whitespace. -/
def skipJsonWs (t : List Char) : List Char := t.dropWhile jsonWsChar

/-- Hexadecimal digit value, for `\uXXXX` string escapes. -/
def hexVal (c : Char) : Option Nat :=
  if '0' ≤ c ∧ c ≤ '9' then some (c.toNat - '0'.toNat)
  else if 'a' ≤ c ∧ c ≤ 'f' then some (c.toNat - 'a'.toNat + 10)
  else if 'A' ≤ c ∧ c ≤ 'F' then some (c.toNat - 'A'.toNat + 10)
  else none

/-- Body of a JSON string literal (after the opening quote): returns the
decoded characters and the remainder after the closing quote. -/
def parseStringChars : List Char → Option (List Char × List Char)
  | [] => none
  | c :: r =>
    if c == quoteChar then some ([], r)
    else if c == backslashChar then
      match r with
      | [] => none
      | e :: r2 =>
        if e == quoteChar then (parseStringChars r2).map fun p => (quoteChar :: p.1, p.2)
        else if e == backslashChar then (parseStringChars r2).map fun p => (backslashChar :: p.1, p.2)
        else if e == '/' then (parseStringChars r2).map fun p => ('/' :: p.1, p.2)
        else if e == 'b' then (parseStringChars r2).map fun p => ('\x08' :: p.1, p.2)
        else if e == 'f' then (parseStringChars r2).map fun p => ('\x0c' :: p.1, p.2)
        else if e == 'n' then (parseStringChars r2).map fun p => ('\n' :: p.1, p.2)
        else if e == 'r' then (parseStringChars r2).map fun p => ('\r' :: p.1, p.2)
        else if e == 't' then (parseStringChars r2).map fun p => ('\t' :: p.1, p.2)
        else if e == 'u' then
          match r2 with
          | h1 :: h2 :: h3 :: h4 :: r3 =>
            match hexVal h1, hexVal h2, hexVal h3, hexVal h4 with
            | some a, some b, some c2, some d =>
              let n := ((a * 16 + b) * 16 + c2) * 16 + d
              if h : n.isValidChar then
                (parseStringChars r3).map fun p => (Char.ofNatAux n h :: p.1, p.2)
              else none
            | _, _, _, _ => none
          | _ => none
        else none
    else if c.toNat < 32 then none
    else (parseStringChars r).map fun p => (c :: p.1, p.2)

/-- Decimal digit run. -/
def digitRun (t : List Char) : List Char × List Char :=
  (t.takeWhile Char.isDigit, t.dropWhile Char.isDigit)

/-- Optional fraction part of a JSON number: `(\.[0-9]+)?`. -/
def parseFracPart (t : List Char) : Option (List Char × List Char) :=
  match t with
  | '.' :: r =>
    let (ds, r2) := digitRun r
    if ds.isEmpty then none else some ('.' :: ds, r2)
  | _ => some ([], t)

/-- Optional exponent part of a JSON number: `([eE][+-]?[0-9]+)?`. -/
def parseExpPart (t : List Char) : Option (List Char × List Char) :=
  match t with
  | e :: r =>
    if e == 'e' || e == 'E' then
      let (sgn, r2) : List Char × List Char :=
        match r with
        | s :: r3 => if s == '+' || s == '-' then ([s], r3) else ([], r)
        | [] => ([], r)
      let (ds, r4) := digitRun r2
      if ds.isEmpty then none else some (e :: sgn ++ ds, r4)
    else some ([], t)
  | [] => some ([], t)

/-- JSON number lexeme per the JSON grammar
(`-?(0|[1-9][0-9]*)(\.[0-9]+)?([eE][+-]?[0-9]+)?`).
Returns the lexeme and the rest. -/
def parseNumberLex (t : List Char) : Option (List Char × List Char) :=
  let (sign, t1) : List Char × List Char :=
    match t with
    | c :: r => if c == '-' then (['-'], r) else ([], t)
    | [] => ([], t)
  match t1 with
  | [] => none
  | c :: r =>
    let intPart : Option (List Char × List Char) :=
      if c == '0' then some (['0'], r)
      else if c.isDigit then some (digitRun (c :: r))
      else none
    match intPart with
    | none => none
    | some (ip, t2) =>
      match parseFracPart t2 with
      | none => none
      | some (fp, t3) =>
        match parseExpPart t3 with
        | none => none
        | some (ep, t4) => some (sign ++ ip ++ fp ++ ep, t4)

mutual

/-- One JSON value, fuel-bounded recursive descent (the fuel only bounds
nesting work; `parseJson` supplies enough for any input). -/
def parseValue : Nat → List Char → Option (Json × List Char)
  | 0, _ => none
  | Nat.succ fuel, t =>
    match skipJsonWs t with
    | [] => none
    | c :: r =>
      if c == quoteChar then
        (parseStringChars r).map fun p => (Json.str (String.mk p.1), p.2)
      else if c == '[' then
        match skipJsonWs r with
        | ']' :: r2 => some (Json.arr [], r2)
        | t2 => parseArrayRest fuel t2 []
      else if c == '{' then
        match skipJsonWs r with
        | '}' :: r2 => some (Json.obj [], r2)
        | t2 => parseObjectRest fuel t2 []
      else if c == 'n' then
        match r with
        | 'u' :: 'l' :: 'l' :: r2 => some (Json.null, r2)
        | _ => none
      else if c == 't' then
        match r with
        | 'r' :: 'u' :: 'e' :: r2 => some (Json.bool true, r2)
        | _ => none
      else if c == 'f' then
        match r with
        | 'a' :: 'l' :: 's' :: 'e' :: r2 => some (Json.bool false, r2)
        | _ => none
      else if c == '-' || c.isDigit then
        (parseNumberLex (c :: r)).map fun p => (Json.num (String.mk p.1), p.2)
      else none

/-- Array elements after `[` (at least one element present). -/
def parseArrayRest : Nat → List Char → List Json → Option (Json × List Char)
  | 0, _, _ => none
  | Nat.succ fuel, t, acc =>
    match parseValue fuel t with
    | none => none
    | some (v, r) =>
      match skipJsonWs r with
      | ',' :: r2 => parseArrayRest fuel r2 (acc ++ [v])
      | ']' :: r2 => some (Json.arr (acc ++ [v]), r2)
      | _ => none

/-- Object members after `{` (at least one member present). -/
def parseObjectRest : Nat → List Char → List (String × Json) → Option (Json × List Char)
  | 0, _, _ => none
  | Nat.succ fuel, t, acc =>
    match skipJsonWs t with
    | c :: r =>
      if c == quoteChar then
        match parseStringChars r with
        | none => none
        | some (key, r2) =>
          match skipJsonWs r2 with
          | ':' :: r3 =>
            match parseValue fuel r3 with
            | none => none
            | some (v, r4) =>
              match skipJsonWs r4 with
              | ',' :: r5 => parseObjectRest fuel r5 (acc ++ [(String.mk key, v)])
              | '}' :: r5 => some (Json.obj (acc ++ [(String.mk key, v)]), r5)
              | _ => none
          | _ => none
      else none
    | [] => none

end

/-- Model of `JSON.parse`: parse one value, then require only trailing
whitespace. -/
def parseJson (t : List Char) : Option Json :=
  match parseValue (t.length + 1) t with
  | some (v, rest) => if (skipJsonWs rest).isEmpty then some v else none
  | none => none

/-- True when the list starts with a markdown code fence (three backticks),
as tested by the fence regex of the route. -/
def startsFence (t : List Char) : Bool :=
  match t with
  | a :: b :: c :: _ => a == backtickChar && b == backtickChar && c == backtickChar
  | _ => false

/-- The suffix following the first occurrence of a three-backtick fence
(leftmost-match behaviour of the fence regex). -/
def afterFirstFence : List Char → Option (List Char)
  | [] => none
  | c :: r => if startsFence (c :: r) then some (r.drop 2) else afterFirstFence r

/-- Lazy capture of the fence regex body: the shortest run of characters
after which (skipping whitespace) a closing fence appears.  `none` when no
closing fence exists, in which case the whole regex fails to match. -/
def lazyFenceContent : List Char → Option (List Char)
  | [] => none
  | c :: r =>
    if startsFence (dropJsWs (c :: r)) then some []
    else (lazyFenceContent r).map fun cs => c :: cs

/-- Model of `responseText.match(/```(?:json)?\s*([\s\S]*?)\s*```/)`:
the captured group of the first fenced block, when the regex matches. -/
def fenceExtract (t : List Char) : Option (List Char) :=
  (afterFirstFence t).bind fun r =>
    let r2 := if ['j', 's', 'o', 'n'].isPrefixOf r then r.drop 4 else r
    lazyFenceContent (dropJsWs r2)

/-- Model of the brace-span step: `indexOf('{')`, `lastIndexOf('}')`, and
the enclosed substring when both exist with the last brace after the
first.  `none` when the condition fails (the candidate is then left
unchanged by the route). -/
def braceSpanOpt (t : List Char) : Option (List Char) :=
  match t.findIdx? (fun c => c == '{'), t.reverse.findIdx? (fun c => c == '}') with
  | some fb, some j =>
    let lb := t.length - 1 - j
    if fb < lb then some ((t.drop fb).take (lb + 1 - fb)) else none
  | _, _ => none

/-- The brace-span step as applied by the route (candidate unchanged when
no qualifying brace pair exists). -/
def braceSpan (t : List Char) : List Char := (braceSpanOpt t).getD t

/-- The candidate after the fence step: trimmed fenced content if the
fence regex matched, otherwise the trimmed whole text. -/
def fenceOrWhole (t : List Char) : List Char :=
  match fenceExtract t with
  | some inner => jsTrim inner
  | none => t

/-- Last-wins field lookup, as reading a property of a JavaScript object
built by `JSON.parse` (duplicate keys overwrite). -/
def lookupLast (fs : List (String × Json)) (k : String) : Option Json :=
  fs.foldl (fun acc p => if p.1 == k then some p.2 else acc) none

/-- The route's structural validation: the parsed value must be an object
whose `comments` property is truthy and an array (`[]` is truthy in JS,
so an empty array passes; a missing, null or non-array property throws,
which the route converts into fallback processing). -/
def getCommentsArr : Json → Option (List Json)
  | Json.obj fs =>
    match lookupLast fs "comments" with
    | some (Json.arr xs) => some xs
    | _ => none
  | _ => none

/-- The complete structured-parsing attempt of `processImage`: trim, fence
extraction, brace span, one `JSON.parse`, structural validation.  `none`
exactly when the route's try-block throws. -/
def structuredParse (s : String) : Option (List Json) :=
  (parseJson (braceSpan (fenceOrWhole (jsTrim s.data)))).bind getCommentsArr

/-- A character the scrape regex content class `[^"'\n]` accepts. -/
def contentChar (c : Char) : Bool :=
  !(c == quoteChar || c == apostChar || c == '\n')

/-- A quote as in the regex class `["']`. -/
def isQuoteChar (c : Char) : Bool := c == quoteChar || c == apostChar

/-- A separator accepted by `[:\s]`. -/
def sepChar (c : Char) : Bool := c == ':' || jsWsChar c

/-- Case-insensitive literal match: returns the matched original
characters and the rest (`lab` is given lowercase). -/
def ciPrefixStrip : List Char → List Char → Option (List Char × List Char)
  | [], t => some ([], t)
  | _ :: _, [] => none
  | l :: ls, c :: r =>
    if c.toLower == l then (ciPrefixStrip ls r).map fun p => (c :: p.1, p.2) else none

/-- The alternation `(?:comment|text|username)` of the scrape regex, with
the `i` flag. -/
def matchLabel (t : List Char) : Option (List Char × List Char) :=
  match ciPrefixStrip ['c', 'o', 'm', 'm', 'e', 'n', 't'] t with
  | some p => some p
  | none =>
    match ciPrefixStrip ['t', 'e', 'x', 't'] t with
    | some p => some p
    | none => ciPrefixStrip ['u', 's', 'e', 'r', 'n', 'a', 'm', 'e'] t

/-- `["']?([^"'\n]+)["']?` starting exactly here: consumed characters and
rest, with the greedy content run and both optional quotes. -/
def contentMatch (u : List Char) : Option (List Char × List Char) :=
  match u with
  | [] => none
  | c :: _ =>
    if contentChar c then
      let run := u.takeWhile contentChar
      match u.dropWhile contentChar with
      | q2 :: r2 => if isQuoteChar q2 then some (run ++ [q2], r2) else some (run, q2 :: r2)
      | [] => some (run, [])
    else none

/-- The tail `["']?([^"'\n]+)["']?` with the leading optional quote's
greedy-then-backtrack behaviour. -/
def tailMatch (u : List Char) : Option (List Char × List Char) :=
  match u with
  | [] => none
  | q :: rest =>
    if isQuoteChar q then
      match contentMatch rest with
      | some p => some (q :: p.1, p.2)
      | none => contentMatch u
    else contentMatch u

/-- Backtracking of the greedy `[:\s]+`: try the longest separator run
first, then shorten; `k` is the number of separator characters tried. -/
def trySeps (lab run after : List Char) : Nat → Option (List Char × List Char)
  | 0 => none
  | Nat.succ k =>
    match tailMatch (run.drop (k + 1) ++ after) with
    | some p => some (lab ++ run.take (k + 1) ++ p.1, p.2)
    | none => trySeps lab run after k

/-- One attempt of the whole scrape regex at the current position:
the full match and the remainder on success. -/
def matchAt (t : List Char) : Option (List Char × List Char) :=
  match matchLabel t with
  | none => none
  | some (lab, rest) =>
    let run := rest.takeWhile sepChar
    let after := rest.dropWhile sepChar
    if run.isEmpty then none else trySeps lab run after run.length

/-- All matches of the scrape regex with the `g` flag: leftmost,
non-overlapping, resuming after each match. -/
def rawMatchesAux : Nat → List Char → List (List Char)
  | 0, _ => []
  | Nat.succ _, [] => []
  | Nat.succ fuel, c :: rest =>
    match matchAt (c :: rest) with
    | some (m, after) => m :: rawMatchesAux fuel after
    | none => rawMatchesAux fuel rest

/-- `responseText.match(/(?:comment|text|username)[:\s]+["']?([^"'\n]+)["']?/gi)`. -/
def rawMatches (t : List Char) : List (List Char) := rawMatchesAux t.length t

/-- The secondary extraction `pattern.match(/["']?([^"'\n]+)["']?/)`:
group 1 of the first match, scanning positions left to right. -/
def innerExtract : List Char → Option (List Char)
  | [] => none
  | c :: r =>
    if isQuoteChar c then
      match r with
      | [] => none
      | d :: _ =>
        if contentChar d then some (r.takeWhile contentChar) else innerExtract r
    else if contentChar c then some ((c :: r).takeWhile contentChar)
    else innerExtract r

/-- `match ? match[1] : pattern` of the scrape fallback. -/
def innerExtractStr (m : List Char) : List Char := (innerExtract m).getD m

/-- The pattern-scraping fallback: one bare comment per regex match,
carrying only a `text` field. -/
def scrapeComments (s : String) : List Json :=
  (rawMatches s.data).map fun m =>
    Json.obj [("text", Json.str (String.mk (innerExtractStr m)))]

/-- The last-resort comment: the raw response truncated to 500 characters
(`responseText.substring(0, 500)`). -/
def lastResortComment (s : String) : Json :=
  Json.obj [("text", Json.str (String.mk (s.data.take 500)))]

/-- The catch-branch of `processImage`: scrape results when any exist,
otherwise the single truncated-text comment. -/
def fallbackComments (s : String) : List Json :=
  match scrapeComments s with
  | [] => [lastResortComment s]
  | cs => cs

/-- The Response Normalizer: the parsing section of `processImage` in the
API route, from raw model text to the returned comment list.  Total by
construction — the embedding of the route's never-throwing guarantee. -/
def normalizeResponse (s : String) : List Json :=
  match structuredParse s with
  | some arr => arr
  | none => fallbackComments s

/-- One page-or-image result as assembled by the route (`ProcessedComment`). -/
structure PageResult where
  imageName : String
  comments : List Json
  rawResponse : String

/-- A source file together with the outcomes of its external effects:
reading its bytes, rasterizing it (when treated as a PDF: either an error
message or the per-page model-invocation outcomes), and the single model
invocation (when treated as an image).  Each `Except.error` carries the
thrown message. -/
structure SourceFile where
  name : String
  ftype : String
  readResult : Except String Unit
  rasterResult : Except String (List (Except String String))
  imageInvocation : Except String String

/-- The route's PDF test:
`file.type === "application/pdf" || file.name.toLowerCase().endsWith(".pdf")`. -/
def isPdfFile (f : SourceFile) : Bool :=
  f.ftype == "application/pdf" || [ '.', 'p', 'd', 'f' ].isSuffixOf f.name.toLower.data

/-- `` `${fileName} (page ${pageNumber})` `` as built by `processImage`. -/
def pageName (name : String) (k : Nat) : String :=
  name ++ " (page " ++ toString k ++ ")"

/-- The per-page loop over a PDF's images inside the inner try: one
normalized result per successful invocation; the first thrown invocation
error is caught by the inner catch, which pushes a single degraded result
and abandons the remaining pages. -/
def runPdfPages (name : String) : Nat → List (Except String String) → List PageResult
  | _, [] => []
  | k, Except.ok resp :: rest =>
    ⟨pageName name k, normalizeResponse resp, resp⟩ :: runPdfPages name (k + 1) rest
  | _, Except.error e :: _ => [⟨name, [], "Error processing PDF: " ++ e⟩]

/-- One iteration of the route's per-file loop, including both the inner
(PDF) and outer catch handlers. -/
def processFile (f : SourceFile) : List PageResult :=
  match f.readResult with
  | Except.error e => [⟨f.name, [], "Error processing file: " ++ e⟩]
  | Except.ok _ =>
    if isPdfFile f then
      match f.rasterResult with
      | Except.error e => [⟨f.name, [], "Error processing PDF: " ++ e⟩]
      | Except.ok pages => runPdfPages f.name 1 pages
    else
      match f.imageInvocation with
      | Except.ok resp => [⟨f.name, normalizeResponse resp, resp⟩]
      | Except.error e => [⟨f.name, [], "Error processing file: " ++ e⟩]

/-- The whole per-file loop of `POST`: results appended in file order. -/
def batchProcess (files : List SourceFile) : List PageResult :=
  files.flatMap processFile

/-- A page of a decoded PDF document (native viewport dimensions). -/
structure PdfPage where
  nativeWidth : Nat
  nativeHeight : Nat

/-- A rendered page image: 1-based page index, the upscaling factor used,
and the scaled raster dimensions. -/
structure PageImage where
  pageIndex : Nat
  scale : Nat
  width : Nat
  height : Nat

/-- The message thrown by `convertPdfToImages` when the canvas backend is
unavailable. -/
def canvasUnavailableMsg : String :=
  "PDF processing is not available. Canvas module is not installed. This feature requires native dependencies that may not be available in all environments."

/-- The render loop of `convertPdfToImages`: `page.getViewport({scale: 2.0})`
and one canvas render per page, pages numbered from `k`. -/
def renderPages : Nat → List PdfPage → List PageImage
  | _, [] => []
  | k, p :: rest =>
    ⟨k, 2, 2 * p.nativeWidth, 2 * p.nativeHeight⟩ :: renderPages (k + 1) rest

/-- `convertPdfToImages`: fails with the canvas message when no canvas
backend is available, otherwise renders every page in document order at
scale 2 starting from page 1. -/
def convertPdfToImages (canvasAvailable : Bool) (pages : List PdfPage) :
    Except String (List PageImage) :=
  if canvasAvailable then Except.ok (renderPages 1 pages)
  else Except.error canvasUnavailableMsg

/-- A character that triggers CSV quote-wrapping: the delimiter, a quote,
or a newline. -/
def csvSpecialChar (c : Char) : Bool :=
  c == ',' || c == quoteChar || c == '\n'

/-- Whether any character of the string triggers quote-wrapping. -/
def hasCsvSpecial (s : String) : Bool := s.data.any csvSpecialChar

/-- `value.replace(/"/g, '""')` on the character list. -/
def doubleQuotesL (l : List Char) : List Char :=
  l.flatMap fun c => if c == quoteChar then [quoteChar, quoteChar] else [c]

/-- Quote doubling on strings. -/
def doubleQuotes (s : String) : String := String.mk (doubleQuotesL s.data)

/-- `escapeCSV` from `lib/csv-export.ts`: falsy values (absent or empty)
serialize as the empty field; otherwise quotes are doubled and the field
is quote-wrapped exactly when the escaped text contains a comma, quote or
newline. -/
def escapeCSV (v : Option String) : String :=
  match v with
  | none => ""
  | some s =>
    if s == "" then ""
    else
      let escaped := doubleQuotes s
      if hasCsvSpecial escaped then
        String.mk [quoteChar] ++ escaped ++ String.mk [quoteChar]
      else escaped

/-- A flattened comment row as consumed by `generateCSV`. -/
structure FlatComment where
  imageName : String
  username : Option String
  text : String
  timestamp : Option String
  likes : Option String

/-- The fixed CSV header of `generateCSV`. -/
def csvHeader : String := "Image Name,Username,Comment Text,Timestamp,Likes"

/-- One data row of `generateCSV`. -/
def csvRow (c : FlatComment) : String :=
  String.intercalate ","
    [escapeCSV (some c.imageName), escapeCSV c.username, escapeCSV (some c.text),
     escapeCSV c.timestamp, escapeCSV c.likes]

/-- `generateCSV`: header plus one row per comment, newline-joined. -/
def generateCSV (cs : List FlatComment) : String :=
  String.intercalate (String.mk ['\n']) (csvHeader :: cs.map csvRow)

/-- Undo RFC 4180 quote doubling. -/
def undoubleQuotes : List Char → List Char
  | [] => []
  | a :: b :: r =>
    if a == quoteChar && b == quoteChar then quoteChar :: undoubleQuotes r
    else a :: undoubleQuotes (b :: r)
  | [a] => [a]

/-- Modelled from the spec: reading one CSV field back with standard
RFC 4180 quote semantics — a field wrapped in quotes is unwrapped and its
doubled quotes collapsed, any other field is taken verbatim. -/
def rfc4180ReadField (s : String) : String :=
  match s.data with
  | c :: rest =>
    if c == quoteChar ∧ rest.getLast? == some quoteChar ∧ rest ≠ [] then
      String.mk (undoubleQuotes rest.dropLast)
    else s
  | [] => s

/-- Modelled from the claim wording of the layered strategy (C2): fence
parse first with first success winning; brace-span extraction applied to
the raw text only when no fence matched or the fenced content failed to
parse; whole-text parse only when neither produced a candidate; wrong
top-level shape treated as a parse failure that falls through to the
pattern-scraping fallback. -/
def claimedLayeredNormalize (s : String) : List Json :=
  let t := jsTrim s.data
  match (fenceExtract t).bind fun inner => (parseJson (jsTrim inner)).bind getCommentsArr with
  | some arr => arr
  | none =>
    match (braceSpanOpt t).bind fun cand => (parseJson cand).bind getCommentsArr with
    | some arr => arr
    | none =>
      match
        (if (fenceExtract t).isNone && (braceSpanOpt t).isNone then
          (parseJson t).bind getCommentsArr
        else none) with
      | some arr => arr
      | none => fallbackComments s

/-- The amended description of the layered strategy: a fence restricts all
later structured steps to its content; brace-span extraction applies to
the fenced content when a fence matched, otherwise to the whole trimmed
text; exactly one parse is attempted, on the whole trimmed text exactly
when no fence matched and no brace pair exists; any parse or shape
failure — including failure on fenced content — falls directly to the
scraping fallback. -/
def amendedLayeredNormalize (s : String) : List Json :=
  let t := jsTrim s.data
  match fenceExtract t with
  | some inner =>
    let base := jsTrim inner
    match (parseJson ((braceSpanOpt base).getD base)).bind getCommentsArr with
    | some arr => arr
    | none => fallbackComments s
  | none =>
    match braceSpanOpt t with
    | some cand =>
      match (parseJson cand).bind getCommentsArr with
      | some arr => arr
      | none => fallbackComments s
    | none =>
      match (parseJson t).bind getCommentsArr with
      | some arr => arr
      | none => fallbackComments s

/-- Modelled from the spec: coercion of an array element into a Comment
by keeping only the recognized fields and dropping everything else. -/
def specCoerceComment : Json → Json
  | Json.obj fs =>
    Json.obj (fs.filter fun p =>
      p.1 == "username" || p.1 == "text" || p.1 == "timestamp" || p.1 == "likes")
  | j => j

/-- Modelled from the claim wording of C6: each input contributes 1, or
its page count when it is a document that rasterized successfully,
regardless of the per-page success/failure mix. -/
def claimedPageCount (f : SourceFile) : Nat :=
  if isPdfFile f then
    match f.rasterResult with
    | Except.ok ps => ps.length
    | Except.error _ => 1
  else 1

/-- The batch length predicted by claim C6. -/
def claimedBatchLen (files : List SourceFile) : Nat :=
  (files.map claimedPageCount).sum

/-- The page outcomes before the first invocation failure, with its
message, when one exists. -/
def splitAtFirstError : List (Except String String) → Option (List String × String)
  | [] => none
  | Except.ok r :: rest => (splitAtFirstError rest).map fun p => (r :: p.1, p.2)
  | Except.error e :: _ => some ([], e)

/-- All page responses when no invocation failed. -/
def allOkResponses : List (Except String String) → Option (List String)
  | [] => some []
  | Except.ok r :: rest => (allOkResponses rest).map fun rs => r :: rs
  | Except.error _ :: _ => none

/-- The per-page results for a run of successful invocations, pages
numbered from `k`. -/
def successResults (name : String) : Nat → List String → List PageResult
  | _, [] => []
  | k, r :: rest =>
    ⟨pageName name k, normalizeResponse r, r⟩ :: successResults name (k + 1) rest

/-- The number of PageResults a file actually contributes. -/
def resultCount (f : SourceFile) : Nat :=
  match f.readResult with
  | Except.error _ => 1
  | Except.ok _ =>
    if isPdfFile f then
      match f.rasterResult with
      | Except.error _ => 1
      | Except.ok pages =>
        match splitAtFirstError pages with
        | none => pages.length
        | some (good, _) => good.length + 1
    else 1

/-- Whether any stage of processing this file throws. -/
def hasFault (f : SourceFile) : Bool :=
  match f.readResult with
  | Except.error _ => true
  | Except.ok _ =>
    if isPdfFile f then
      match f.rasterResult with
      | Except.error _ => true
      | Except.ok pages =>
        pages.any fun p => match p with | Except.error _ => true | Except.ok _ => false
    else
      match f.imageInvocation with
      | Except.error _ => true
      | Except.ok _ => false

/-- Counterexample input for C2: a fence whose content is not JSON,
followed by a well-shaped brace span in the raw text. -/
def cexLayered : String := "prefix ```abc``` \x7b\"comments\": []\x7d"

/-- Counterexample input for C3: well-shaped JSON whose comment carries an
unrecognized field. -/
def cexCoerce : String := "\x7b\"comments\":[\x7b\"text\":\"hi\",\"extra\":\"x\"\x7d]\x7d"

/-- Counterexample input for C8, fenced form: valid JSON of the wrong
top-level shape inside a fence. -/
def cexFencedWrapped : String := "```json\n\x7b\"a\": \"b\"\x7d\n```"

/-- Counterexample input for C8, unwrapped form. -/
def cexFencedPlain : String := "\x7b\"a\": \"b\"\x7d"

/-- Counterexample file for C6: a two-page document whose first page
invocation throws. -/
def cexPdfFile : SourceFile :=
  ⟨"doc.pdf", "application/pdf", Except.ok (),
    Except.ok [Except.error "boom", Except.ok "x"], Except.ok "unused"⟩

/-- The text of the sole comment of a singleton result, used to separate
concrete normalizer outputs. -/
def soleText : List Json → String
  | [Json.obj [(_, Json.str v)]] => v
  | _ => ""

/-- Number of fields of an object value, used to separate concrete
comment values. -/
def objArity : Json → Nat
  | Json.obj fs => fs.length
  | _ => 0

/-- Witness input for the pass-through theorem: two well-formed comments,
one carrying an unrecognized field. -/
def wpassInput : String :=
  "\x7b\"comments\":[\x7b\"text\":\"hi\",\"extra\":\"x\"\x7d,\x7b\"username\":\"u\",\"text\":\"t2\"\x7d]\x7d"

/-- Witness file for fault isolation: a PDF whose rasterization throws. -/
def wfaultFile : SourceFile :=
  ⟨"bad.pdf", "application/pdf", Except.ok (),
    Except.error "no canvas", Except.ok "unused"⟩

/-- Witness file processed after the faulty one. -/
def wimgFile : SourceFile :=
  ⟨"img.png", "image/png", Except.ok (), Except.ok [], Except.ok "resp"⟩

/-- Witness file for ordering: a PDF whose two page invocations succeed. -/
def wpdfOkFile : SourceFile :=
  ⟨"a.pdf", "application/pdf", Except.ok (),
    Except.ok [Except.ok "x", Except.ok "y"], Except.ok "unused"⟩

/-- Witness input for the fence-unwrap theorem: well-shaped JSON. -/
def wfenceJson : String := "\x7b\"comments\": [\x7b\"text\": \"hi\"\x7d]\x7d"

/-- C1: For every raw model text the Normalizer returns an ordered comment
sequence without throwing: the structured parse either succeeds and its
array is returned, or its failure falls through to the pattern scrape,
whose emptiness falls through to the single last-resort comment — every
input terminates in exactly one of the three layers' results. -/
theorem normalizeResponse_never_fails_ladder (s : String) :
    (∃ arr, structuredParse s = some arr ∧ normalizeResponse s = arr) ∨
    (structuredParse s = none ∧ scrapeComments s ≠ [] ∧
      normalizeResponse s = scrapeComments s) ∨
    (structuredParse s = none ∧ scrapeComments s = [] ∧
      normalizeResponse s = [lastResortComment s]) := by
  cases h : structuredParse s with
  | some arr =>
    exact Or.inl ⟨arr, rfl, by simp [normalizeResponse, h]⟩
  | none =>
    cases h2 : scrapeComments s with
    | nil =>
      exact Or.inr (Or.inr ⟨rfl, rfl, by simp [normalizeResponse, fallbackComments, h, h2]⟩)
    | cons c cs =>
      refine Or.inr (Or.inl ⟨rfl, by simp, ?_⟩)
      simp [normalizeResponse, fallbackComments, h, h2]

/-- C4: when the structured parse fails and the pattern scrape yields
nothing, the Normalizer returns exactly one comment whose text is the raw
input truncated to 500 characters. -/
theorem normalizeResponse_last_resort (s : String)
    (h1 : structuredParse s = none) (h2 : scrapeComments s = []) :
    normalizeResponse s =
      [Json.obj [("text", Json.str (String.mk (s.data.take 500)))]] := by
  simp [normalizeResponse, fallbackComments, h1, h2, lastResortComment]

/-- Witness for C4 at the plain-prose input `"hello world"`. -/
theorem normalizeResponse_last_resort_witness :
    structuredParse "hello world" = none ∧ scrapeComments "hello world" = [] ∧
    normalizeResponse "hello world" =
      [Json.obj [("text", Json.str (String.mk ("hello world".data.take 500)))]] :=
  ⟨rfl, rfl, normalizeResponse_last_resort "hello world" rfl rfl⟩

/-- C2 counterexample: on a response with a non-JSON fence followed by a
well-shaped brace span, the claimed layered strategy recovers the empty
comments array from the brace span of the raw text, but the route never
retries the raw text after the fenced candidate fails, and degrades to
the single last-resort comment instead. -/
theorem claimedLayered_cex :
    claimedLayeredNormalize cexLayered = [] ∧
    normalizeResponse cexLayered = [lastResortComment cexLayered] ∧
    ([lastResortComment cexLayered] : List Json) ≠ [] := by
  refine ⟨rfl, rfl, by simp⟩

/-- C2 amended: the route's single-candidate layering — fence content (when
matched) is the only base for brace-span extraction, one parse is
attempted on the resulting candidate (the whole trimmed text exactly when
no fence matched and no brace pair exists), and every parse or shape
failure falls directly to the scraping fallback. -/
theorem normalizeResponse_eq_amendedLayered (s : String) :
    normalizeResponse s = amendedLayeredNormalize s := by
  unfold normalizeResponse structuredParse amendedLayeredNormalize fenceOrWhole braceSpan
  cases hf : fenceExtract (jsTrim s.data) with
  | none =>
    cases hb : braceSpanOpt (jsTrim s.data) with
    | none =>
      cases hp : (parseJson (jsTrim s.data)).bind getCommentsArr with
      | none => simp [hf, hb, hp]
      | some arr => simp [hf, hb, hp]
    | some cand =>
      cases hp : (parseJson cand).bind getCommentsArr with
      | none => simp [hf, hb, hp]
      | some arr => simp [hf, hb, hp]
  | some inner =>
    cases hb : braceSpanOpt (jsTrim inner) with
    | none =>
      cases hp : (parseJson (jsTrim inner)).bind getCommentsArr with
      | none => simp [hf, hb, hp]
      | some arr => simp [hf, hb, hp]
    | some cand =>
      cases hp : (parseJson cand).bind getCommentsArr with
      | none => simp [hf, hb, hp]
      | some arr => simp [hf, hb, hp]

/-- C3 counterexample: for well-shaped JSON whose comment carries an
unrecognized `extra` field, the route returns the element verbatim, which
differs from its coercion to recognized fields only. -/
theorem normalizeResponse_coerce_cex :
    normalizeResponse cexCoerce =
      [Json.obj [("text", Json.str "hi"), ("extra", Json.str "x")]] ∧
    specCoerceComment (Json.obj [("text", Json.str "hi"), ("extra", Json.str "x")]) =
      Json.obj [("text", Json.str "hi")] ∧
    Json.obj [("text", Json.str "hi")] ≠
      Json.obj [("text", Json.str "hi"), ("extra", Json.str "x")] := by
  refine ⟨rfl, rfl, fun h => ?_⟩
  have harity := congrArg objArity h
  simp [objArity] at harity

/-- C3 amended: for raw text that (after trimming) parses as JSON of the
expected shape, every array element is returned in order and verbatim —
present fields of any name are kept intact and absent fields stay absent,
with no coercion and no null defaulting. -/
theorem normalizeResponse_passthrough (s : String) (fs : List (String × Json))
    (xs : List Json)
    (h1 : fenceExtract (jsTrim s.data) = none)
    (h2 : braceSpan (jsTrim s.data) = jsTrim s.data)
    (h3 : parseJson (jsTrim s.data) = some (Json.obj fs))
    (h4 : lookupLast fs "comments" = some (Json.arr xs)) :
    normalizeResponse s = xs := by
  have hs : structuredParse s = some xs := by
    unfold structuredParse fenceOrWhole
    rw [h1, h2, h3]
    simp [getCommentsArr, h4]
  simp [normalizeResponse, hs]

/-- Witness for the C3 amended pass-through at a concrete two-comment
response. -/
theorem normalizeResponse_passthrough_witness :
    normalizeResponse wpassInput =
      [Json.obj [("text", Json.str "hi"), ("extra", Json.str "x")],
       Json.obj [("username", Json.str "u"), ("text", Json.str "t2")]] :=
  normalizeResponse_passthrough wpassInput
    [("comments", Json.arr
      [Json.obj [("text", Json.str "hi"), ("extra", Json.str "x")],
       Json.obj [("username", Json.str "u"), ("text", Json.str "t2")]])]
    [Json.obj [("text", Json.str "hi"), ("extra", Json.str "x")],
     Json.obj [("username", Json.str "u"), ("text", Json.str "t2")]]
    rfl rfl rfl rfl

/-- Collapsing doubled quotes after a non-quote head. -/
theorem undoubleQuotes_cons_ne (c : Char) (rest : List Char)
    (hc : (c == quoteChar) = false) :
    undoubleQuotes (c :: rest) = c :: undoubleQuotes rest := by
  cases rest with
  | nil => simp [undoubleQuotes]
  | cons b r2 => simp [undoubleQuotes, hc]

/-- Collapsing a doubled quote pair. -/
theorem undoubleQuotes_cons_quote (rest : List Char) :
    undoubleQuotes (quoteChar :: quoteChar :: rest) = quoteChar :: undoubleQuotes rest := by
  simp [undoubleQuotes]

/-- Quote doubling is undone by quote undoubling. -/
theorem undoubleQuotes_doubleQuotesL (l : List Char) :
    undoubleQuotes (doubleQuotesL l) = l := by
  induction l with
  | nil => rfl
  | cons c r ih =>
    by_cases hc : c = quoteChar
    · subst hc
      have h1 : doubleQuotesL (quoteChar :: r) =
          quoteChar :: quoteChar :: doubleQuotesL r := by
        simp [doubleQuotesL]
      rw [h1, undoubleQuotes_cons_quote, ih]
    · have hcb : (c == quoteChar) = false := by simp [hc]
      have h1 : doubleQuotesL (c :: r) = c :: doubleQuotesL r := by
        simp [doubleQuotesL, hc]
      rw [h1, undoubleQuotes_cons_ne c _ hcb, ih]

/-- Quote doubling is the identity on quote-free text. -/
theorem doubleQuotesL_eq_self (l : List Char)
    (h : ∀ c ∈ l, (c == quoteChar) = false) : doubleQuotesL l = l := by
  induction l with
  | nil => rfl
  | cons c r ih =>
    have hc := h c (List.mem_cons_self c r)
    have hc2 : ¬c = quoteChar := by simpa using hc
    have h1 : doubleQuotesL (c :: r) = c :: doubleQuotesL r := by
      simp [doubleQuotesL, hc2]
    rw [h1, ih fun d hd => h d (List.mem_cons_of_mem c hd)]

/-- Quote doubling neither creates nor removes wrap-triggering characters. -/
theorem hasCsvSpecial_doubleQuotes (v : String) :
    hasCsvSpecial (doubleQuotes v) = hasCsvSpecial v := by
  show (doubleQuotesL v.data).any csvSpecialChar = v.data.any csvSpecialChar
  induction v.data with
  | nil => rfl
  | cons c r ih =>
    by_cases hc : c = quoteChar
    · subst hc
      have h1 : doubleQuotesL (quoteChar :: r) =
          quoteChar :: quoteChar :: doubleQuotesL r := by
        simp [doubleQuotesL]
      rw [h1]
      simp [List.any_cons, csvSpecialChar]
    · have h1 : doubleQuotesL (c :: r) = c :: doubleQuotesL r := by
        simp [doubleQuotesL, hc]
      rw [h1]
      simp [List.any_cons, ih]

/-- Reading back a quote-wrapped field unwraps it and collapses doubled
quotes. -/
theorem rfc4180ReadField_wrapped (inner : List Char) :
    rfc4180ReadField (String.mk [quoteChar] ++ String.mk inner ++ String.mk [quoteChar]) =
      String.mk (undoubleQuotes inner) := by
  have hd : (String.mk [quoteChar] ++ String.mk inner ++ String.mk [quoteChar]).data
      = quoteChar :: (inner ++ [quoteChar]) := by
    simp [String.data_append]
  simp only [rfc4180ReadField, hd]
  have hcond : (quoteChar == quoteChar) = true ∧
      ((inner ++ [quoteChar]).getLast? == some quoteChar) = true ∧
      inner ++ [quoteChar] ≠ [] :=
    ⟨by simp, by simp [List.getLast?_concat], by simp⟩
  rw [if_pos hcond]
  simp [List.dropLast_concat]

/-- No wrap-triggering character means no quote character. -/
theorem no_quote_of_no_special (v : String) (h : hasCsvSpecial v = false) :
    ∀ c ∈ v.data, (c == quoteChar) = false := by
  intro c hc
  by_contra hq
  have hcq : (c == quoteChar) = true := by simpa using hq
  have hspec : csvSpecialChar c = true := by simp [csvSpecialChar, hcq]
  have htrue : hasCsvSpecial v = true := by
    simp only [hasCsvSpecial, List.any_eq_true]
    exact ⟨c, hc, hspec⟩
  simp [htrue] at h

/-- C9: the CSV field escaping rule and its RFC 4180 round trip — a field
is quote-wrapped with doubled quotes exactly when it contains the
delimiter, a quote or a newline; absent/empty fields serialize empty; the
claimed example serializes as claimed; and reading any escaped field back
reproduces the original text. -/
theorem escapeCSV_rfc4180 :
    (∀ v : String, hasCsvSpecial v = true →
        escapeCSV (some v) =
          String.mk [quoteChar] ++ doubleQuotes v ++ String.mk [quoteChar]) ∧
    (∀ v : String, hasCsvSpecial v = false → escapeCSV (some v) = v) ∧
    escapeCSV none = "" ∧
    escapeCSV (some "") = "" ∧
    escapeCSV (some "He said \"hi\", then left") = "\"He said \"\"hi\"\", then left\"" ∧
    (∀ v : String, rfc4180ReadField (escapeCSV (some v)) = v) := by
  have part1 : ∀ v : String, hasCsvSpecial v = true →
      escapeCSV (some v) =
        String.mk [quoteChar] ++ doubleQuotes v ++ String.mk [quoteChar] := by
    intro v h
    have hne : (v == "") = false := by
      rcases eq_or_ne v "" with rfl | hne
      · simp [hasCsvSpecial] at h
      · simp [hne]
    simp [escapeCSV, hne, hasCsvSpecial_doubleQuotes, h]
  have part2 : ∀ v : String, hasCsvSpecial v = false → escapeCSV (some v) = v := by
    intro v h
    rcases eq_or_ne v "" with rfl | hne
    · rfl
    · have hnoq := no_quote_of_no_special v h
      have hdq : doubleQuotes v = v := by
        show String.mk (doubleQuotesL v.data) = v
        rw [doubleQuotesL_eq_self v.data hnoq]
      have hneb : (v == "") = false := by simp [hne]
      simp [escapeCSV, hneb, hasCsvSpecial_doubleQuotes, h, hdq]
  refine ⟨part1, part2, rfl, rfl, by decide, ?_⟩
  intro v
  rcases eq_or_ne v "" with rfl | hne
  · rfl
  cases hs : hasCsvSpecial v with
  | true =>
    rw [part1 v hs]
    have : doubleQuotes v = String.mk (doubleQuotesL v.data) := rfl
    rw [this, rfc4180ReadField_wrapped, undoubleQuotes_doubleQuotesL]
  | false =>
    rw [part2 v hs]
    have hnoq := no_quote_of_no_special v hs
    cases hd : v.data with
    | nil => simp [rfc4180ReadField, hd]
    | cons c rest =>
      have hcq : (c == quoteChar) = false := hnoq c (by rw [hd]; exact List.mem_cons_self c rest)
      simp [rfc4180ReadField, hd, hcq]

/-- Witness for C9 at concrete fields of each kind. -/
theorem escapeCSV_rfc4180_witness :
    hasCsvSpecial "a,b" = true ∧
    escapeCSV (some "a,b") =
      String.mk [quoteChar] ++ doubleQuotes "a,b" ++ String.mk [quoteChar] ∧
    hasCsvSpecial "ab" = false ∧
    escapeCSV (some "ab") = "ab" ∧
    rfc4180ReadField (escapeCSV (some "He said \"hi\", then left")) =
      "He said \"hi\", then left" :=
  ⟨by decide, escapeCSV_rfc4180.1 "a,b" (by decide), by decide,
    escapeCSV_rfc4180.2.1 "ab" (by decide),
    escapeCSV_rfc4180.2.2.2.2.2 "He said \"hi\", then left"⟩

/-- A successful case-insensitive strip splits the input and matches the
label up to lowercasing. -/
theorem ciPrefixStrip_spec (lab : List Char) : ∀ t m rest,
    ciPrefixStrip lab t = some (m, rest) →
    t = m ++ rest ∧ m.map Char.toLower = lab := by
  induction lab with
  | nil =>
    intro t m rest h
    simp only [ciPrefixStrip, Option.some.injEq, Prod.mk.injEq] at h
    obtain ⟨h1, h2⟩ := h
    subst h1; subst h2; simp
  | cons l ls ih =>
    intro t m rest h
    cases t with
    | nil => simp [ciPrefixStrip] at h
    | cons c r =>
      simp only [ciPrefixStrip] at h
      by_cases hcl : (c.toLower == l) = true
      · rw [if_pos hcl] at h
        cases hrec : ciPrefixStrip ls r with
        | none => rw [hrec] at h; simp at h
        | some p =>
          obtain ⟨m1, r1⟩ := p
          rw [hrec] at h
          simp only [Option.map_some', Option.some.injEq, Prod.mk.injEq] at h
          obtain ⟨h1, h2⟩ := h
          obtain ⟨hsplit, hmap⟩ := ih r m1 r1 (by rw [hrec])
          subst h1; subst h2
          constructor
          · simp [hsplit]
          · simp [hmap, eq_of_beq hcl]
      · rw [if_neg hcl] at h
        simp at h

/-- A matched label is one of the three alternatives, lowercased. -/
theorem matchLabel_spec (t lab rest : List Char)
    (h : matchLabel t = some (lab, rest)) :
    t = lab ++ rest ∧
      (lab.map Char.toLower = "comment".data ∨
       lab.map Char.toLower = "text".data ∨
       lab.map Char.toLower = "username".data) := by
  unfold matchLabel at h
  cases h1 : ciPrefixStrip ['c', 'o', 'm', 'm', 'e', 'n', 't'] t with
  | some p =>
    rw [h1] at h
    simp only [Option.some.injEq] at h
    obtain ⟨hs, hm⟩ := ciPrefixStrip_spec _ t lab rest (by rw [h1, h])
    exact ⟨hs, Or.inl hm⟩
  | none =>
    rw [h1] at h
    cases h2 : ciPrefixStrip ['t', 'e', 'x', 't'] t with
    | some p =>
      rw [h2] at h
      simp only [Option.some.injEq] at h
      obtain ⟨hs, hm⟩ := ciPrefixStrip_spec _ t lab rest (by rw [h2, h])
      exact ⟨hs, Or.inr (Or.inl hm)⟩
    | none =>
      rw [h2] at h
      obtain ⟨hs, hm⟩ := ciPrefixStrip_spec _ t lab rest h
      exact ⟨hs, Or.inr (Or.inr hm)⟩

/-- Whatever separator length succeeds, the full match extends the label. -/
theorem trySeps_shape (lab run after : List Char) : ∀ k m rest,
    trySeps lab run after k = some (m, rest) → ∃ suffix, m = lab ++ suffix := by
  intro k
  induction k with
  | zero => intro m rest h; simp [trySeps] at h
  | succ k ih =>
    intro m rest h
    simp only [trySeps] at h
    cases ht : tailMatch (run.drop (k + 1) ++ after) with
    | some p =>
      rw [ht] at h
      simp only [Option.some.injEq, Prod.mk.injEq] at h
      exact ⟨run.take (k + 1) ++ p.1, by simp [← h.1]⟩
    | none =>
      rw [ht] at h
      exact ih m rest h

/-- Every full regex match starts with one of the three labels. -/
theorem matchAt_shape (t m rest : List Char) (h : matchAt t = some (m, rest)) :
    ∃ lab suffix, m = lab ++ suffix ∧
      (lab.map Char.toLower = "comment".data ∨
       lab.map Char.toLower = "text".data ∨
       lab.map Char.toLower = "username".data) := by
  unfold matchAt at h
  cases hl : matchLabel t with
  | none => rw [hl] at h; simp at h
  | some p =>
    obtain ⟨lab0, rest0⟩ := p
    rw [hl] at h
    dsimp only at h
    by_cases hrun : (rest0.takeWhile sepChar).isEmpty = true
    · rw [if_pos hrun] at h; simp at h
    · rw [if_neg hrun] at h
      obtain ⟨suffix, hsuf⟩ :=
        trySeps_shape lab0 (rest0.takeWhile sepChar) (rest0.dropWhile sepChar) _ m rest h
      obtain ⟨-, hdisj⟩ := matchLabel_spec t lab0 rest0 (by rw [hl])
      exact ⟨lab0, suffix, hsuf, hdisj⟩

/-- Every match collected by the global scan starts with a label. -/
theorem rawMatchesAux_shape : ∀ fuel t m, m ∈ rawMatchesAux fuel t →
    ∃ lab suffix, m = lab ++ suffix ∧
      (lab.map Char.toLower = "comment".data ∨
       lab.map Char.toLower = "text".data ∨
       lab.map Char.toLower = "username".data) := by
  intro fuel
  induction fuel with
  | zero => intro t m hm; simp [rawMatchesAux] at hm
  | succ fuel ih =>
    intro t m hm
    cases t with
    | nil => simp [rawMatchesAux] at hm
    | cons c rest =>
      simp only [rawMatchesAux] at hm
      cases hmt : matchAt (c :: rest) with
      | none => rw [hmt] at hm; exact ih rest m hm
      | some p =>
        obtain ⟨m0, after0⟩ := p
        rw [hmt] at hm
        dsimp only at hm
        rcases List.mem_cons.mp hm with rfl | hm2
        · exact matchAt_shape (c :: rest) m after0 (by rw [hmt])
        · exact ih after0 m hm2

/-- Label characters are content characters: nothing lowercasing to a
letter of one of the three labels can be a quote or a newline. -/
theorem content_of_label (lab L : List Char) (hmap : lab.map Char.toLower = L)
    (hq : quoteChar ∉ L) (ha : apostChar ∉ L) (hn : '\n' ∉ L) :
    ∀ c ∈ lab, contentChar c = true := by
  intro c hc
  have hmem : c.toLower ∈ L := hmap ▸ List.mem_map_of_mem Char.toLower hc
  by_contra hcc
  have hbad : (c == quoteChar || c == apostChar || c == '\n') = true := by
    cases hh : (c == quoteChar || c == apostChar || c == '\n') with
    | true => rfl
    | false => exact absurd (by simp [contentChar, hh]) hcc
  rcases Bool.or_eq_true_iff.mp hbad with hb | hb
  · rcases Bool.or_eq_true_iff.mp hb with hb2 | hb2
    · rw [eq_of_beq hb2] at hmem
      rw [show quoteChar.toLower = quoteChar from by decide] at hmem
      exact hq hmem
    · rw [eq_of_beq hb2] at hmem
      rw [show apostChar.toLower = apostChar from by decide] at hmem
      exact ha hmem
  · rw [eq_of_beq hb] at hmem
    rw [show ('\n' : Char).toLower = '\n' from by decide] at hmem
    exact hn hmem

/-- `takeWhile` passes over a prefix on which the predicate holds. -/
theorem takeWhile_append_all (p : Char → Bool) (l1 l2 : List Char)
    (h : ∀ c ∈ l1, p c = true) :
    (l1 ++ l2).takeWhile p = l1 ++ l2.takeWhile p := by
  induction l1 with
  | nil => simp
  | cons c r ih =>
    have hc := h c (List.mem_cons_self c r)
    simp only [List.cons_append, List.takeWhile_cons, hc, if_true]
    rw [ih fun d hd => h d (List.mem_cons_of_mem c hd)]

/-- The secondary extraction on a match starting with a content character
returns the leading content run. -/
theorem innerExtractStr_content_head (c0 : Char) (rest : List Char)
    (hc : contentChar c0 = true) :
    innerExtractStr (c0 :: rest) = (c0 :: rest).takeWhile contentChar := by
  have hq : isQuoteChar c0 = false := by
    have : (c0 == quoteChar || c0 == apostChar || c0 == '\n') = false := by
      simpa [contentChar] using hc
    simp only [Bool.or_eq_false_iff] at this
    simp [isQuoteChar, this.1.1, this.1.2]
  unfold innerExtractStr innerExtract
  simp [hq, hc]

/-- The extracted text of a label-led match keeps the label as prefix. -/
theorem scrape_text_from_label (lab suffix L : List Char)
    (hL : lab.map Char.toLower = L)
    (hq : quoteChar ∉ L) (ha : apostChar ∉ L) (hn : '\n' ∉ L) (hne : L ≠ []) :
    ∃ w, (innerExtractStr (lab ++ suffix)).map Char.toLower = L ++ w := by
  have hall := content_of_label lab L hL hq ha hn
  cases lab with
  | nil => exact absurd hL.symm (by simpa using hne)
  | cons c0 rest0 =>
    have hc0 : contentChar c0 = true := hall c0 (List.mem_cons_self c0 rest0)
    rw [show (c0 :: rest0) ++ suffix = c0 :: (rest0 ++ suffix) from rfl,
      innerExtractStr_content_head c0 (rest0 ++ suffix) hc0,
      show (c0 :: (rest0 ++ suffix)) = (c0 :: rest0) ++ suffix from rfl,
      takeWhile_append_all contentChar (c0 :: rest0) suffix hall]
    exact ⟨(suffix.takeWhile contentChar).map Char.toLower, by rw [List.map_append, hL]⟩

/-- C10: every comment produced by the pattern-scraping fallback is an
object carrying exactly the `text` field — username, timestamp and likes
are never populated — and its text still starts with the matched label
(`comment`, `text` or `username`, case-insensitively), rather than being
only the value after the label. -/
theorem scrapeComments_text_only (s : String) (c : Json)
    (hc : c ∈ scrapeComments s) :
    ∃ v w, c = Json.obj [("text", Json.str (String.mk v))] ∧
      (v.map Char.toLower = "comment".data ++ w ∨
       v.map Char.toLower = "text".data ++ w ∨
       v.map Char.toLower = "username".data ++ w) := by
  unfold scrapeComments at hc
  obtain ⟨m, hm, rfl⟩ := List.mem_map.mp hc
  obtain ⟨lab, suffix, rfl, hdisj⟩ := rawMatchesAux_shape s.data.length s.data m hm
  refine ⟨innerExtractStr (lab ++ suffix), ?_⟩
  rcases hdisj with hL | hL | hL
  · obtain ⟨w, hw⟩ := scrape_text_from_label lab suffix "comment".data hL
      (by decide) (by decide) (by decide) (by decide)
    exact ⟨w, rfl, Or.inl hw⟩
  · obtain ⟨w, hw⟩ := scrape_text_from_label lab suffix "text".data hL
      (by decide) (by decide) (by decide) (by decide)
    exact ⟨w, rfl, Or.inr (Or.inl hw)⟩
  · obtain ⟨w, hw⟩ := scrape_text_from_label lab suffix "username".data hL
      (by decide) (by decide) (by decide) (by decide)
    exact ⟨w, rfl, Or.inr (Or.inr hw)⟩

/-- Witness for C10 at the scraped response `"text: hello"`. -/
theorem scrapeComments_text_only_witness :
    Json.obj [("text", Json.str "text: hello")] ∈ scrapeComments "text: hello" ∧
    (∃ v w,
      Json.obj [("text", Json.str "text: hello")] =
        Json.obj [("text", Json.str (String.mk v))] ∧
      (v.map Char.toLower = "comment".data ++ w ∨
       v.map Char.toLower = "text".data ++ w ∨
       v.map Char.toLower = "username".data ++ w)) :=
  ⟨List.mem_singleton.mpr rfl,
    scrapeComments_text_only "text: hello" _ (List.mem_singleton.mpr rfl)⟩

/-- Membership from a known last element. -/
theorem mem_of_getLast?_eq (l : List Char) (a : Char) (h : l.getLast? = some a) :
    a ∈ l := by
  have hm : a ∈ l.getLast? := by rw [h]; exact rfl
  obtain ⟨hne, heq⟩ := List.mem_getLast?_eq_getLast hm
  rw [heq]
  exact List.getLast_mem hne

/-- The batch is the concatenation of its files' contributions. -/
theorem batchProcess_append (fs1 fs2 : List SourceFile) :
    batchProcess (fs1 ++ fs2) = batchProcess fs1 ++ batchProcess fs2 :=
  List.flatMap_append fs1 fs2 processFile

/-- A fully successful page run yields one normalized result per page. -/
theorem runPdfPages_allOk (name : String) : ∀ pages rs k,
    allOkResponses pages = some rs →
    runPdfPages name k pages = successResults name k rs := by
  intro pages
  induction pages with
  | nil =>
    intro rs k h
    simp only [allOkResponses, Option.some.injEq] at h
    subst h; rfl
  | cons p rest ih =>
    intro rs k h
    cases p with
    | ok r =>
      simp only [allOkResponses] at h
      cases hrec : allOkResponses rest with
      | none => rw [hrec] at h; simp at h
      | some rs2 =>
        rw [hrec] at h
        simp only [Option.map_some', Option.some.injEq] at h
        subst h
        simp [runPdfPages, successResults, ih rs2 (k + 1) hrec]
    | error e => simp [allOkResponses] at h

/-- A page run with a first failing invocation yields the earlier page
results followed by exactly one degraded result. -/
theorem runPdfPages_firstError (name : String) : ∀ pages good e k,
    splitAtFirstError pages = some (good, e) →
    runPdfPages name k pages =
      successResults name k good ++ [⟨name, [], "Error processing PDF: " ++ e⟩] := by
  intro pages
  induction pages with
  | nil => intro good e k h; simp [splitAtFirstError] at h
  | cons p rest ih =>
    intro good e k h
    cases p with
    | ok r =>
      simp only [splitAtFirstError] at h
      cases hrec : splitAtFirstError rest with
      | none => rw [hrec] at h; simp at h
      | some q =>
        obtain ⟨g2, e2⟩ := q
        rw [hrec] at h
        simp only [Option.map_some', Option.some.injEq, Prod.mk.injEq] at h
        obtain ⟨h1, h2⟩ := h
        subst h1; subst h2
        simp [runPdfPages, successResults, ih _ _ (k + 1) hrec]
    | error e0 =>
      simp only [splitAtFirstError, Option.some.injEq, Prod.mk.injEq] at h
      obtain ⟨h1, h2⟩ := h
      subst h1; subst h2
      simp [runPdfPages, successResults]

/-- Lengths of success runs. -/
theorem successResults_length (name : String) : ∀ rs k,
    (successResults name k rs).length = rs.length := by
  intro rs
  induction rs with
  | nil => intro k; rfl
  | cons r rest ih => intro k; simp [successResults, ih (k + 1)]

/-- All-ok extraction preserves length. -/
theorem allOkResponses_length : ∀ pages rs,
    allOkResponses pages = some rs → rs.length = pages.length := by
  intro pages
  induction pages with
  | nil =>
    intro rs h
    simp only [allOkResponses, Option.some.injEq] at h
    subst h; rfl
  | cons p rest ih =>
    intro rs h
    cases p with
    | ok r =>
      simp only [allOkResponses] at h
      cases hrec : allOkResponses rest with
      | none => rw [hrec] at h; simp at h
      | some rs2 =>
        rw [hrec] at h
        simp only [Option.map_some', Option.some.injEq] at h
        subst h
        simp [ih rs2 hrec]
    | error e => simp [allOkResponses] at h

/-- When no invocation fails, the all-ok extraction succeeds. -/
theorem allOk_of_split_none : ∀ pages, splitAtFirstError pages = none →
    ∃ rs, allOkResponses pages = some rs := by
  intro pages
  induction pages with
  | nil => intro _; exact ⟨[], rfl⟩
  | cons p rest ih =>
    intro h
    cases p with
    | ok r =>
      simp only [splitAtFirstError] at h
      cases hrec : splitAtFirstError rest with
      | none =>
        obtain ⟨rs, hrs⟩ := ih hrec
        exact ⟨r :: rs, by simp [allOkResponses, hrs]⟩
      | some q => rw [hrec] at h; simp at h
    | error e => simp [splitAtFirstError] at h

/-- A page list with some failing invocation has a first failure. -/
theorem split_some_of_any : ∀ pages : List (Except String String),
    (pages.any fun p => match p with
      | Except.error _ => true
      | Except.ok _ => false) = true →
    ∃ g e, splitAtFirstError pages = some (g, e) := by
  intro pages
  induction pages with
  | nil => intro h; simp at h
  | cons p rest ih =>
    intro h
    cases p with
    | ok r =>
      simp only [List.any_cons] at h
      have h2 : (rest.any fun p => match p with
          | Except.error _ => true
          | Except.ok _ => false) = true := by simpa using h
      obtain ⟨g, e, hge⟩ := ih h2
      exact ⟨r :: g, e, by simp [splitAtFirstError, hge]⟩
    | error e => exact ⟨[], e, rfl⟩

/-- Each pre-failure result is a normal per-page result. -/
theorem successResults_members (name : String) : ∀ rs k r,
    r ∈ successResults name k rs →
    ∃ j resp, r = ⟨pageName name j, normalizeResponse resp, resp⟩ := by
  intro rs
  induction rs with
  | nil => intro k r hr; simp [successResults] at hr
  | cons a as ih =>
    intro k r hr
    simp only [successResults] at hr
    rcases List.mem_cons.mp hr with rfl | hr2
    · exact ⟨k, a, rfl⟩
    · exact ih (k + 1) r hr2

/-- A nonempty-prefix concatenation is not the empty string. -/
theorem append_ne_empty (a e : String) (ha : a.data ≠ []) : a ++ e ≠ "" := by
  intro h
  have hd := congrArg String.data h
  rw [String.data_append] at hd
  exact ha (List.append_eq_nil.mp hd).1

/-- Per-file result counts. -/
theorem processFile_length (f : SourceFile) :
    (processFile f).length = resultCount f := by
  unfold processFile resultCount
  cases hr : f.readResult with
  | error e => rfl
  | ok u =>
    by_cases hpdf : isPdfFile f = true
    · simp only [hpdf, if_true]
      cases hrast : f.rasterResult with
      | error e => rfl
      | ok pages =>
        dsimp only
        cases hsp : splitAtFirstError pages with
        | none =>
          obtain ⟨rs, hrs⟩ := allOk_of_split_none pages hsp
          rw [runPdfPages_allOk f.name pages rs 1 hrs]
          simp [successResults_length, allOkResponses_length pages rs hrs]
        | some q =>
          obtain ⟨g, e⟩ := q
          rw [runPdfPages_firstError f.name pages g e 1 hsp]
          simp [successResults_length]
    · simp only [hpdf, if_false]
      cases himg : f.imageInvocation with
      | ok resp => rfl
      | error e => rfl

/-- C5: a fault at any stage for one SourceFile — read failure,
rasterization failure, a failing invocation partway through a document's
pages, or a failing image invocation — is converted into exactly one
degraded PageResult carrying an empty comment sequence and an error
description, every other result of that file being a normal per-page
result, and the batch continues with the surrounding files. -/
theorem batch_fault_single_degraded (fs1 : List SourceFile) (f : SourceFile)
    (fs2 : List SourceFile) (h : hasFault f = true) :
    ∃ pre msg,
      processFile f = pre ++ [⟨f.name, [], msg⟩] ∧
      (∀ r ∈ pre, ∃ k resp, r = ⟨pageName f.name k, normalizeResponse resp, resp⟩) ∧
      (∃ e, msg = "Error processing file: " ++ e ∨
            msg = "Error processing PDF: " ++ e) ∧
      msg ≠ "" ∧
      batchProcess (fs1 ++ f :: fs2) =
        batchProcess fs1 ++ processFile f ++ batchProcess fs2 := by
  have hbatch : batchProcess (fs1 ++ f :: fs2) =
      batchProcess fs1 ++ processFile f ++ batchProcess fs2 := by
    simp [batchProcess, List.flatMap_append, List.flatMap_cons, List.append_assoc]
  cases hr : f.readResult with
  | error e =>
    exact ⟨[], "Error processing file: " ++ e, by simp [processFile, hr], by simp,
      ⟨e, Or.inl rfl⟩, append_ne_empty _ _ (by decide), hbatch⟩
  | ok u =>
    by_cases hpdf : isPdfFile f = true
    · cases hrast : f.rasterResult with
      | error e =>
        exact ⟨[], "Error processing PDF: " ++ e,
          by simp [processFile, hr, hpdf, hrast], by simp,
          ⟨e, Or.inr rfl⟩, append_ne_empty _ _ (by decide), hbatch⟩
      | ok pages =>
        have hany : (pages.any fun p => match p with
            | Except.error _ => true
            | Except.ok _ => false) = true := by
          unfold hasFault at h
          rw [hr] at h
          simp only [hpdf, if_true, hrast] at h
          exact h
        obtain ⟨g, e, hsp⟩ := split_some_of_any pages hany
        refine ⟨successResults f.name 1 g, "Error processing PDF: " ++ e, ?_, ?_,
          ⟨e, Or.inr rfl⟩, append_ne_empty _ _ (by decide), hbatch⟩
        · simp [processFile, hr, hpdf, hrast,
            runPdfPages_firstError f.name pages g e 1 hsp]
        · exact fun r hr2 => successResults_members f.name g 1 r hr2
    · cases himg : f.imageInvocation with
      | ok resp =>
        exfalso
        unfold hasFault at h
        rw [hr] at h
        simp only [hpdf, if_false, himg] at h
        exact Bool.false_ne_true h
      | error e =>
        exact ⟨[], "Error processing file: " ++ e,
          by simp [processFile, hr, hpdf, himg], by simp,
          ⟨e, Or.inl rfl⟩, append_ne_empty _ _ (by decide), hbatch⟩

/-- Witness for C5: a rasterization fault in the first of two files. -/
theorem batch_fault_single_degraded_witness :
    hasFault wfaultFile = true ∧
    (∃ pre msg,
      processFile wfaultFile = pre ++ [⟨wfaultFile.name, [], msg⟩] ∧
      (∀ r ∈ pre, ∃ k resp,
        r = ⟨pageName wfaultFile.name k, normalizeResponse resp, resp⟩) ∧
      (∃ e, msg = "Error processing file: " ++ e ∨
            msg = "Error processing PDF: " ++ e) ∧
      msg ≠ "" ∧
      batchProcess ([] ++ wfaultFile :: [wimgFile]) =
        batchProcess [] ++ processFile wfaultFile ++ batchProcess [wimgFile]) :=
  ⟨rfl, batch_fault_single_degraded [] wfaultFile [wimgFile] rfl⟩

/-- C6 counterexample: a two-page document whose first page invocation
fails contributes one PageResult, not its page count. -/
theorem batch_length_cex :
    (batchProcess [cexPdfFile]).length = 1 ∧
    claimedBatchLen [cexPdfFile] = 2 ∧ (1 : Nat) ≠ 2 :=
  ⟨rfl, rfl, by decide⟩

/-- Page names of an all-success run ascend from the starting index. -/
theorem successResults_names (name : String) : ∀ rs k,
    (successResults name k rs).map (fun r => r.imageName) =
      (List.range' k rs.length).map (pageName name) := by
  intro rs
  induction rs with
  | nil => intro k; rfl
  | cons r rest ih =>
    intro k
    simp only [successResults, List.map_cons, List.length_cons, List.range'_succ]
    rw [ih (k + 1)]

/-- C6 amended: PageResults appear in input-file order; a document whose
pages all succeed contributes results in ascending page order; and the
batch length is the sum over files of the per-file count — 1 for
non-documents and for documents failing read or rasterization, the page
count for documents whose invocations all succeed, and the index of the
first failing invocation for documents failing partway (later pages are
skipped). -/
theorem batch_order_and_length :
    (∀ fs1 fs2 : List SourceFile,
      batchProcess (fs1 ++ fs2) = batchProcess fs1 ++ batchProcess fs2) ∧
    (∀ files : List SourceFile,
      (batchProcess files).length = (files.map resultCount).sum) ∧
    (∀ f : SourceFile, ∀ pages rs, f.readResult = Except.ok () →
      isPdfFile f = true → f.rasterResult = Except.ok pages →
      allOkResponses pages = some rs →
      (processFile f).map (fun r => r.imageName) =
        (List.range' 1 pages.length).map (pageName f.name)) := by
  refine ⟨batchProcess_append, ?_, ?_⟩
  · intro files
    induction files with
    | nil => rfl
    | cons f rest ih =>
      simp only [batchProcess, List.flatMap_cons, List.length_append, List.map_cons,
        List.sum_cons]
      rw [processFile_length]
      simp only [batchProcess] at ih
      rw [ih]
  · intro f pages rs hr hpdf hrast hok
    have : processFile f = successResults f.name 1 rs := by
      simp [processFile, hr, hpdf, hrast, runPdfPages_allOk f.name pages rs 1 hok]
    rw [this, successResults_names, allOkResponses_length pages rs hok]

/-- Witness for C6 at a concrete batch: a successfully processed two-page
document lists its pages in ascending order and the length formula holds. -/
theorem batch_order_and_length_witness :
    (batchProcess ([wpdfOkFile] ++ [wimgFile]) =
      batchProcess [wpdfOkFile] ++ batchProcess [wimgFile]) ∧
    (batchProcess [wpdfOkFile, wimgFile]).length =
      ([wpdfOkFile, wimgFile].map resultCount).sum ∧
    (processFile wpdfOkFile).map (fun r => r.imageName) =
      (List.range' 1 2).map (pageName wpdfOkFile.name) :=
  ⟨batch_order_and_length.1 [wpdfOkFile] [wimgFile],
    batch_order_and_length.2.1 [wpdfOkFile, wimgFile],
    batch_order_and_length.2.2 wpdfOkFile [Except.ok "x", Except.ok "y"]
      ["x", "y"] rfl rfl rfl rfl⟩

/-- Render length. -/
theorem renderPages_length : ∀ ps : List PdfPage, ∀ k,
    (renderPages k ps).length = ps.length := by
  intro ps
  induction ps with
  | nil => intro k; rfl
  | cons p rest ih => intro k; simp [renderPages, ih (k + 1)]

/-- Rendered page indices ascend from the starting index. -/
theorem renderPages_indices : ∀ ps : List PdfPage, ∀ k,
    (renderPages k ps).map (fun i => i.pageIndex) = List.range' k ps.length := by
  intro ps
  induction ps with
  | nil => intro k; rfl
  | cons p rest ih =>
    intro k
    simp only [renderPages, List.map_cons, List.length_cons, List.range'_succ]
    rw [ih (k + 1)]

/-- Every rendered page uses the fixed upscaling factor 2. -/
theorem renderPages_scale : ∀ ps : List PdfPage, ∀ k, ∀ i ∈ renderPages k ps,
    i.scale = 2 := by
  intro ps
  induction ps with
  | nil => intro k i hi; simp [renderPages] at hi
  | cons p rest ih =>
    intro k i hi
    simp only [renderPages] at hi
    rcases List.mem_cons.mp hi with rfl | hi2
    · rfl
    · exact ih (k + 1) i hi2

/-- Rendered dimensions are twice the native viewport. -/
theorem renderPages_dims : ∀ ps : List PdfPage, ∀ k,
    (renderPages k ps).map (fun i => i.width) =
      ps.map (fun p => 2 * p.nativeWidth) ∧
    (renderPages k ps).map (fun i => i.height) =
      ps.map (fun p => 2 * p.nativeHeight) := by
  intro ps
  induction ps with
  | nil => intro k; exact ⟨rfl, rfl⟩
  | cons p rest ih =>
    intro k
    simp only [renderPages, List.map_cons]
    exact ⟨by rw [(ih (k + 1)).1], by rw [(ih (k + 1)).2]⟩

/-- C7: with a canvas backend the Rasterizer renders one PageImage per
page in document order at scale 2 (≥ 2× native resolution) with page
indices starting at 1; without one it fails with the fixed non-empty
canvas-unavailable message, which the batch converts into a single
degraded PageResult for that file while the surrounding files are
processed normally. -/
theorem convertPdfToImages_contract :
    (∀ pages : List PdfPage, ∃ imgs,
      convertPdfToImages true pages = Except.ok imgs ∧
      imgs.length = pages.length ∧
      imgs.map (fun i => i.pageIndex) = List.range' 1 pages.length ∧
      (∀ i ∈ imgs, i.scale = 2 ∧ 2 ≤ i.scale) ∧
      imgs.map (fun i => i.width) = pages.map (fun p => 2 * p.nativeWidth) ∧
      imgs.map (fun i => i.height) = pages.map (fun p => 2 * p.nativeHeight)) ∧
    (∀ pages : List PdfPage,
      convertPdfToImages false pages = Except.error canvasUnavailableMsg) ∧
    canvasUnavailableMsg ≠ "" ∧
    (∀ fs1 : List SourceFile, ∀ f : SourceFile, ∀ fs2 : List SourceFile,
      f.readResult = Except.ok () → isPdfFile f = true →
      f.rasterResult = Except.error canvasUnavailableMsg →
      batchProcess (fs1 ++ f :: fs2) =
        batchProcess fs1 ++
          [⟨f.name, [], "Error processing PDF: " ++ canvasUnavailableMsg⟩] ++
          batchProcess fs2) := by
  refine ⟨?_, fun pages => rfl, by decide, ?_⟩
  · intro pages
    refine ⟨renderPages 1 pages, rfl, renderPages_length pages 1,
      renderPages_indices pages 1, ?_, (renderPages_dims pages 1).1,
      (renderPages_dims pages 1).2⟩
    intro i hi
    exact ⟨renderPages_scale pages 1 i hi, by rw [renderPages_scale pages 1 i hi]⟩
  · intro fs1 f fs2 hr hpdf hrast
    have hproc : processFile f =
        [⟨f.name, [], "Error processing PDF: " ++ canvasUnavailableMsg⟩] := by
      simp [processFile, hr, hpdf, hrast]
    rw [batchProcess_append, show batchProcess (f :: fs2) =
      processFile f ++ batchProcess fs2 from List.flatMap_cons f fs2 processFile,
      hproc, List.append_assoc]

/-- Witness for C7: one concrete page with and without a canvas backend,
and the degraded batch around an unavailable rasterizer. -/
theorem convertPdfToImages_contract_witness :
    (∃ imgs, convertPdfToImages true [⟨100, 50⟩] = Except.ok imgs ∧
      imgs.length = [(⟨100, 50⟩ : PdfPage)].length ∧
      imgs.map (fun i => i.pageIndex) = List.range' 1 [(⟨100, 50⟩ : PdfPage)].length ∧
      (∀ i ∈ imgs, i.scale = 2 ∧ 2 ≤ i.scale) ∧
      imgs.map (fun i => i.width) =
        [(⟨100, 50⟩ : PdfPage)].map (fun p => 2 * p.nativeWidth) ∧
      imgs.map (fun i => i.height) =
        [(⟨100, 50⟩ : PdfPage)].map (fun p => 2 * p.nativeHeight)) ∧
    convertPdfToImages false [⟨100, 50⟩] = Except.error canvasUnavailableMsg ∧
    batchProcess ([] ++ (⟨"d.pdf", "application/pdf", Except.ok (),
        Except.error canvasUnavailableMsg, Except.ok "u"⟩ : SourceFile) :: []) =
      batchProcess [] ++
        [⟨"d.pdf", [], "Error processing PDF: " ++ canvasUnavailableMsg⟩] ++
        batchProcess [] :=
  ⟨convertPdfToImages_contract.1 [⟨100, 50⟩],
    convertPdfToImages_contract.2.1 [⟨100, 50⟩],
    convertPdfToImages_contract.2.2.2 []
      ⟨"d.pdf", "application/pdf", Except.ok (),
        Except.error canvasUnavailableMsg, Except.ok "u"⟩ [] rfl rfl rfl⟩

/-- A list whose head is not whitespace survives whitespace stripping. -/
theorem dropJsWs_eq_self (l : List Char)
    (h : ∀ c, l.head? = some c → jsWsChar c = false) : dropJsWs l = l := by
  cases l with
  | nil => rfl
  | cons c r => simp [dropJsWs, h c rfl]

/-- Trimming is the identity when both ends are non-whitespace. -/
theorem jsTrim_eq_self (t : List Char)
    (h1 : ∀ c, t.head? = some c → jsWsChar c = false)
    (h2 : ∀ c, t.getLast? = some c → jsWsChar c = false) : jsTrim t = t := by
  unfold jsTrim
  rw [dropJsWs_eq_self t.reverse (fun c hc => h2 c (by rwa [List.head?_reverse] at hc)),
    List.reverse_reverse, dropJsWs_eq_self t h1]

/-- A fence can only start with a backtick. -/
theorem startsFence_head (c : Char) (r : List Char)
    (h : startsFence (c :: r) = true) : c = backtickChar := by
  cases r with
  | nil => simp [startsFence] at h
  | cons b r2 =>
    cases r2 with
    | nil => simp [startsFence] at h
    | cons e r3 =>
      simp only [startsFence, Bool.and_eq_true, beq_iff_eq] at h
      exact h.1.1

/-- No backtick, no fence. -/
theorem afterFirstFence_none (t : List Char)
    (h : ∀ c ∈ t, c ≠ backtickChar) : afterFirstFence t = none := by
  induction t with
  | nil => rfl
  | cons c r ih =>
    have hsf : startsFence (c :: r) = false := by
      cases hh : startsFence (c :: r)
      · rfl
      · exact absurd (startsFence_head c r hh) (h c (List.mem_cons_self c r))
    simp only [afterFirstFence, hsf, Bool.false_eq_true, if_false]
    exact ih fun d hd => h d (List.mem_cons_of_mem c hd)

/-- The fence regex fails on backtick-free text. -/
theorem fenceExtract_none (t : List Char)
    (h : ∀ c ∈ t, c ≠ backtickChar) : fenceExtract t = none := by
  simp [fenceExtract, afterFirstFence_none t h]

/-- Whitespace stripping of an appended list stops inside the first part
when that part has a non-whitespace character. -/
theorem dropJsWs_append_keeps : ∀ u tail : List Char,
    (∃ c ∈ u, jsWsChar c = false) →
    dropJsWs (u ++ tail) = dropJsWs u ++ tail ∧ dropJsWs u ≠ [] := by
  intro u
  induction u with
  | nil => intro tail h; simp at h
  | cons c r ih =>
    intro tail h
    cases hc : jsWsChar c with
    | false =>
      constructor
      · simp [dropJsWs, hc]
      · simp [dropJsWs, hc]
    | true =>
      have h2 : ∃ d ∈ r, jsWsChar d = false := by
        obtain ⟨d, hd, hdw⟩ := h
        rcases List.mem_cons.mp hd with rfl | hd2
        · rw [hc] at hdw; exact absurd hdw (by simp)
        · exact ⟨d, hd2, hdw⟩
      obtain ⟨ha, hb⟩ := ih tail h2
      constructor
      · simpa [dropJsWs, hc] using ha
      · simpa [dropJsWs, hc] using hb

/-- No fence can begin where whitespace stripping lands inside
backtick-free text. -/
theorem startsFence_dropJsWs_false (u tail : List Char)
    (hex : ∃ c ∈ u, jsWsChar c = false)
    (hnb : ∀ c ∈ u, c ≠ backtickChar) :
    startsFence (dropJsWs (u ++ tail)) = false := by
  obtain ⟨ha, hb⟩ := dropJsWs_append_keeps u tail hex
  rw [ha]
  cases hd : dropJsWs u with
  | nil => exact absurd hd hb
  | cons d ds =>
    have hdu : d ∈ u := by
      have : d ∈ dropJsWs u := by rw [hd]; exact List.mem_cons_self d ds
      exact (List.dropWhile_sublist jsWsChar).subset this
    cases hh : startsFence (d :: ds ++ tail)
    · rfl
    · exact absurd (startsFence_head d (ds ++ tail) (by simpa using hh))
        (hnb d hdu)

/-- One step of the lazy fence body. -/
theorem lazyFenceContent_cons (c : Char) (r : List Char) :
    lazyFenceContent (c :: r) =
      if startsFence (dropJsWs (c :: r)) = true then some []
      else (lazyFenceContent r).map fun cs => c :: cs := rfl

/-- The trailing newline-plus-fence closes with an empty remainder. -/
theorem lazyFenceContent_tail :
    lazyFenceContent ['\n', backtickChar, backtickChar, backtickChar] = some [] := rfl

/-- The lazy fence body captures exactly a backtick-free span ending in a
closing brace, up to the trailing newline-plus-fence. -/
theorem lazyFenceContent_closes : ∀ m : List Char, m ≠ [] →
    m.getLast? = some '}' → (∀ c ∈ m, c ≠ backtickChar) →
    lazyFenceContent (m ++ ['\n', backtickChar, backtickChar, backtickChar]) =
      some m := by
  intro m
  induction m with
  | nil => intro h; exact absurd rfl h
  | cons c m' ih =>
    intro _ hlast hnb
    have hex : ∃ d ∈ c :: m', jsWsChar d = false :=
      ⟨'}', mem_of_getLast?_eq _ _ hlast, by decide⟩
    have hsf := startsFence_dropJsWs_false (c :: m')
      ['\n', backtickChar, backtickChar, backtickChar] hex hnb
    cases m' with
    | nil =>
      simp only [List.cons_append, List.nil_append] at hsf ⊢
      rw [lazyFenceContent_cons, if_neg (by simp [hsf]), lazyFenceContent_tail]
      rfl
    | cons d m'' =>
      have hlast2 : (d :: m'').getLast? = some '}' := by
        rwa [List.getLast?_cons_cons] at hlast
      have hnb2 : ∀ e ∈ d :: m'', e ≠ backtickChar :=
        fun e he => hnb e (List.mem_cons_of_mem c he)
      have hrec := ih (by simp) hlast2 hnb2
      simp only [List.cons_append] at hsf hrec ⊢
      rw [lazyFenceContent_cons, if_neg (by simp [hsf]), hrec]
      rfl

/-- The fence body after an opening fence. -/
theorem afterFirstFence_fence (rest : List Char) :
    afterFirstFence (backtickChar :: backtickChar :: backtickChar :: rest) =
      some rest := by
  simp [afterFirstFence, startsFence]

/-- Brace-span extraction is the identity on a braced span. -/
theorem braceSpan_eq_self (t : List Char) (hh : t.head? = some '{')
    (hl : t.getLast? = some '}') : braceSpan t = t := by
  cases t with
  | nil => simp at hh
  | cons a rest =>
    have ha : a = '{' := by simpa using hh
    subst ha
    cases rest with
    | nil => simp at hl
    | cons b rs =>
      have hfi : ('{' :: b :: rs).findIdx? (fun c => c == '{') = some 0 := by
        simp [List.findIdx?_cons]
      have hrev : ∃ rr, ('{' :: b :: rs).reverse = '}' :: rr := by
        have hrh : ('{' :: b :: rs).reverse.head? = some '}' := by
          rw [List.head?_reverse]; exact hl
        cases hc : ('{' :: b :: rs).reverse with
        | nil => rw [hc] at hrh; simp at hrh
        | cons x xs =>
          rw [hc] at hrh
          simp only [List.head?_cons, Option.some.injEq] at hrh
          exact ⟨xs, by rw [hrh]⟩
      obtain ⟨rr, hrr⟩ := hrev
      have hri : ('{' :: b :: rs).reverse.findIdx? (fun c => c == '}') = some 0 := by
        rw [hrr]; simp [List.findIdx?_cons]
      unfold braceSpan braceSpanOpt
      rw [hfi, hri]
      dsimp only
      have hlen2 : ('{' :: b :: rs).length = rs.length + 2 := by simp
      have hpos : (0 : Nat) < ('{' :: b :: rs).length - 1 - 0 := by
        rw [hlen2]; omega
      rw [if_pos hpos]
      have htake : ('{' :: b :: rs).length - 1 - 0 + 1 - 0 =
          ('{' :: b :: rs).length := by rw [hlen2]; omega
      rw [List.drop_zero, htake, List.take_length]
      rfl

/-- C8 amended: for a code fence (with or without a `json` language tag)
wrapping backtick-free JSON of the expected shape, the Normalizer returns
the same comment sequence as for the unwrapped JSON text alone — both
recover exactly the parsed comments array. -/
theorem fence_unwrap_equiv (J : String) (fs : List (String × Json)) (xs : List Json)
    (hnb : ∀ c ∈ J.data, c ≠ backtickChar)
    (hh : J.data.head? = some '{')
    (hl : J.data.getLast? = some '}')
    (hp : parseJson J.data = some (Json.obj fs))
    (hc : lookupLast fs "comments" = some (Json.arr xs)) :
    normalizeResponse ("```json\n" ++ J ++ "\n```") = xs ∧
    normalizeResponse ("```\n" ++ J ++ "\n```") = xs ∧
    normalizeResponse J = xs := by
  have hJne : J.data ≠ [] := by
    intro h0; rw [h0] at hh; simp at hh
  have hJhead_ws : ∀ c, J.data.head? = some c → jsWsChar c = false := by
    intro c hcx
    rw [hh] at hcx
    simp only [Option.some.injEq] at hcx
    rw [← hcx]; decide
  have hJlast_ws : ∀ c, J.data.getLast? = some c → jsWsChar c = false := by
    intro c hcx
    rw [hl] at hcx
    simp only [Option.some.injEq] at hcx
    rw [← hcx]; decide
  have hJtrim : jsTrim J.data = J.data := jsTrim_eq_self _ hJhead_ws hJlast_ws
  have hbrace : braceSpan J.data = J.data := braceSpan_eq_self J.data hh hl
  have hparse : (parseJson J.data).bind getCommentsArr = some xs := by
    rw [hp]; simp [getCommentsArr, hc]
  obtain ⟨jr, hJcons⟩ : ∃ jr, J.data = '{' :: jr := by
    cases hJD : J.data with
    | nil => rw [hJD] at hh; simp at hh
    | cons a r =>
      rw [hJD] at hh
      simp only [List.head?_cons, Option.some.injEq] at hh
      exact ⟨r, by rw [← hh]⟩
  have hplain : normalizeResponse J = xs := by
    have hs : structuredParse J = some xs := by
      unfold structuredParse fenceOrWhole
      simp only [hJtrim, fenceExtract_none J.data hnb]
      rw [hbrace]
      exact hparse
    simp [normalizeResponse, hs]
  have h1 : ("```json\n" : String).data =
      backtickChar :: backtickChar :: backtickChar ::
        'j' :: 's' :: 'o' :: 'n' :: '\n' :: [] := by decide
  have h1b : ("```\n" : String).data =
      backtickChar :: backtickChar :: backtickChar :: '\n' :: [] := by decide
  have h2 : ("\n```" : String).data =
      '\n' :: backtickChar :: backtickChar :: backtickChar :: [] := by decide
  have hW1 : ("```json\n" ++ J ++ "\n```").data =
      backtickChar :: backtickChar :: backtickChar :: 'j' :: 's' :: 'o' :: 'n' :: '\n' ::
        (J.data ++ ['\n', backtickChar, backtickChar, backtickChar]) := by
    rw [String.data_append, String.data_append, h1, h2]
    simp
  have hW2 : ("```\n" ++ J ++ "\n```").data =
      backtickChar :: backtickChar :: backtickChar :: '\n' ::
        (J.data ++ ['\n', backtickChar, backtickChar, backtickChar]) := by
    rw [String.data_append, String.data_append, h1b, h2]
    simp
  have hdw : dropJsWs ('\n' :: (J.data ++ ['\n', backtickChar, backtickChar, backtickChar])) =
      J.data ++ ['\n', backtickChar, backtickChar, backtickChar] := by
    rw [hJcons]
    simp [dropJsWs, List.dropWhile_cons, jsWsChar]
  have hclose := lazyFenceContent_closes J.data hJne hl hnb
  have hfe1 : fenceExtract (("```json\n" ++ J ++ "\n```").data) = some J.data := by
    rw [hW1]
    unfold fenceExtract
    rw [afterFirstFence_fence]
    simp only [Option.some_bind]
    have hpre : List.isPrefixOf ['j', 's', 'o', 'n']
        ('j' :: 's' :: 'o' :: 'n' :: '\n' ::
          (J.data ++ ['\n', backtickChar, backtickChar, backtickChar])) = true := by
      simp [List.isPrefixOf]
    rw [if_pos hpre]
    simp only [List.drop_succ_cons, List.drop_zero]
    rw [hdw]
    exact hclose
  have hfe2 : fenceExtract (("```\n" ++ J ++ "\n```").data) = some J.data := by
    rw [hW2]
    unfold fenceExtract
    rw [afterFirstFence_fence]
    simp only [Option.some_bind]
    have hpre : List.isPrefixOf ['j', 's', 'o', 'n']
        ('\n' :: (J.data ++ ['\n', backtickChar, backtickChar, backtickChar])) = false := by
      simp [List.isPrefixOf]
    rw [if_neg (by simp [hpre])]
    rw [hdw]
    exact hclose
  have hlastW1 : (("```json\n" ++ J ++ "\n```").data).getLast? = some backtickChar := by
    rw [String.data_append]
    rw [List.getLast?_append_of_ne_nil _ (by rw [h2]; simp)]
    rw [h2]; decide
  have hlastW2 : (("```\n" ++ J ++ "\n```").data).getLast? = some backtickChar := by
    rw [String.data_append]
    rw [List.getLast?_append_of_ne_nil _ (by rw [h2]; simp)]
    rw [h2]; decide
  have htrimW1 : jsTrim ("```json\n" ++ J ++ "\n```").data =
      ("```json\n" ++ J ++ "\n```").data := by
    apply jsTrim_eq_self
    · intro c hcx
      rw [hW1] at hcx
      simp only [List.head?_cons, Option.some.injEq] at hcx
      rw [← hcx]; decide
    · intro c hcx
      rw [hlastW1] at hcx
      simp only [Option.some.injEq] at hcx
      rw [← hcx]; decide
  have htrimW2 : jsTrim ("```\n" ++ J ++ "\n```").data =
      ("```\n" ++ J ++ "\n```").data := by
    apply jsTrim_eq_self
    · intro c hcx
      rw [hW2] at hcx
      simp only [List.head?_cons, Option.some.injEq] at hcx
      rw [← hcx]; decide
    · intro c hcx
      rw [hlastW2] at hcx
      simp only [Option.some.injEq] at hcx
      rw [← hcx]; decide
  have hs1 : structuredParse ("```json\n" ++ J ++ "\n```") = some xs := by
    unfold structuredParse fenceOrWhole
    simp only [htrimW1, hfe1, hJtrim]
    rw [hbrace]
    exact hparse
  have hs2 : structuredParse ("```\n" ++ J ++ "\n```") = some xs := by
    unfold structuredParse fenceOrWhole
    simp only [htrimW2, hfe2, hJtrim]
    rw [hbrace]
    exact hparse
  exact ⟨by simp [normalizeResponse, hs1], by simp [normalizeResponse, hs2], hplain⟩

/-- C8 counterexample: a fence wrapping valid JSON of the wrong top-level
shape.  Both sides degrade to a last-resort comment built from their own
full raw text, so the fenced and unfenced results differ — the fenced
one retains the fence markers in its text. -/
theorem fence_unwrap_cex :
    normalizeResponse cexFencedWrapped = [lastResortComment cexFencedWrapped] ∧
    normalizeResponse cexFencedPlain = [lastResortComment cexFencedPlain] ∧
    soleText [lastResortComment cexFencedWrapped] = cexFencedWrapped ∧
    soleText [lastResortComment cexFencedPlain] = cexFencedPlain ∧
    normalizeResponse cexFencedWrapped ≠ normalizeResponse cexFencedPlain := by
  refine ⟨rfl, rfl, rfl, rfl, fun h => ?_⟩
  have hst := congrArg soleText h
  rw [show soleText (normalizeResponse cexFencedWrapped) = cexFencedWrapped from rfl,
    show soleText (normalizeResponse cexFencedPlain) = cexFencedPlain from rfl] at hst
  exact absurd hst (by decide)

/-- Witness for the C8 amended equivalence at a concrete fenced response. -/
theorem fence_unwrap_equiv_witness :
    normalizeResponse ("```json\n" ++ wfenceJson ++ "\n```") =
      [Json.obj [("text", Json.str "hi")]] ∧
    normalizeResponse ("```\n" ++ wfenceJson ++ "\n```") =
      [Json.obj [("text", Json.str "hi")]] ∧
    normalizeResponse wfenceJson = [Json.obj [("text", Json.str "hi")]] :=
  fence_unwrap_equiv wfenceJson
    [("comments", Json.arr [Json.obj [("text", Json.str "hi")]])]
    [Json.obj [("text", Json.str "hi")]]
    (by decide) rfl rfl rfl rfl
